import Mathlib

/-!
Shallow embedding of the `hydra` trace ring buffer (`src/ring_buffer.rs`).

Bytes are modelled as `Nat` values (< 256 for real byte data), byte stores as
`List Nat`.  The Rust `Vec<u8>` of the buffer is the `data` field; `usize`
arithmetic is `Nat` arithmetic (the code never overflows `usize` and, under the
buffer invariant, never underflows in the one subtraction `length - 13`).
The `mem::transmute` between `TraceEntry` (a `repr(packed)` struct of a `u64`
timestamp, `u32` tag and one kind byte, 13 bytes total, native = little-endian
byte order) and `[u8; 13]` is modelled by an explicit codec
(`encodeEntry` / `decodeEntry`).
-/

namespace Hydra

/-- `TraceKind` from `ring_buffer.rs`: `#[repr(u8)] enum TraceKind
\x7b Event = 0x0, Start = 0x1, Stop = 0x2 \x7d`. -/
inductive TraceKind where
  | Event : TraceKind
  | Start : TraceKind
  | Stop : TraceKind
deriving DecidableEq

/-- The `repr(u8)` discriminant of a `TraceKind`. -/
def TraceKind.toByte : TraceKind → Nat
  | .Event => 0
  | .Start => 1
  | .Stop => 2

/-- Inverse of `TraceKind.toByte`; an out-of-range byte has no decoding
(the Rust transmute would be undefined behavior there). -/
def TraceKind.ofByte : Nat → Option TraceKind
  | 0 => some .Event
  | 1 => some .Start
  | 2 => some .Stop
  | _ => none

/-- `TraceEntry` from `ring_buffer.rs` (`repr(packed)`): timestamp
(`NsSinceEpoch`, a `u64`), tag (`u32`), kind.  The `PhantomData` field is
zero-sized and carries no data, so it is omitted. -/
structure TraceEntry where
  timestamp : Nat
  tag : Nat
  kind : TraceKind
deriving DecidableEq

/-- `TraceEntry::size()` = `mem::size_of::<TraceEntry<T>>()` = 13, the packed
size 8 + 4 + 1 (checked by the repo test `trace_entry_has_right_size`). -/
def TraceEntry.size : Nat := 13

/-- Little-endian byte decomposition of `x` into `w` bytes, as produced by
viewing a `w`-byte unsigned integer's memory on a little-endian machine. -/
def toBytesLE (w x : Nat) : List Nat :=
  (List.range w).map (fun i => x / 256 ^ i % 256)

/-- Read a little-endian byte list back as a number. -/
def fromBytesLE (bs : List Nat) : Nat :=
  bs.foldr (fun b acc => b + 256 * acc) 0

/-- The 13-byte wire form of an entry, i.e. the result of
`mem::transmute::<TraceEntry<T>, [u8; 13]>`: bytes 0-7 the timestamp,
bytes 8-11 the tag (both little-endian), byte 12 the kind discriminant. -/
def encodeEntry (e : TraceEntry) : List Nat :=
  toBytesLE 8 e.timestamp ++ toBytesLE 4 e.tag ++ [e.kind.toByte]

/-- The inverse transmute, from 13 raw bytes back to an entry.  Returns `none`
on a wrong-sized record or an out-of-range kind byte (undefined behavior in
the Rust original, which never produces such bytes itself). -/
def decodeEntry (bs : List Nat) : Option TraceEntry :=
  if bs.length = TraceEntry.size then
    (TraceKind.ofByte (bs.getD 12 0)).map fun k =>
      { timestamp := fromBytesLE (bs.take 8)
        tag := fromBytesLE ((bs.drop 8).take 4)
        kind := k }
  else none

/-- `RingBuffer` from `ring_buffer.rs`: the byte storage (`data`, whose length
is the fixed capacity), the offset where valid data begins, and the number of
valid bytes. -/
structure RingBuffer where
  data : List Nat
  begin : Nat
  length : Nat
deriving DecidableEq

/-- `RingBuffer::new(capacity)`: `assert!(capacity > TraceEntry::size())`,
then a zeroed buffer with `begin = 0`, `length = 0`.  The assertion failure
(a Rust panic) is modelled as `none`. -/
def RingBuffer.new (capacity : Nat) : Option RingBuffer :=
  if TraceEntry.size < capacity then
    some { data := List.replicate capacity 0, begin := 0, length := 0 }
  else
    none

/-- `RingBuffer::end()`: `(begin + length) % data.len()`. -/
def RingBuffer.end_ (rb : RingBuffer) : Nat :=
  (rb.begin + rb.length) % rb.data.length

/-- Model of `dst[s..s + src.len()].copy_from_slice(src)` on a list. -/
def copySlice (dst : List Nat) (s : Nat) (src : List Nat) : List Nat :=
  dst.take s ++ src ++ dst.drop (s + src.length)

/-- The slice-writing part of `RingBuffer::write`: if the record does not fit
before the end of storage, split it into a prefix filling `[e, capacity)` and
a wrapped suffix filling `[0, len - middle)`; otherwise one contiguous copy. -/
def writeBytes (dst : List Nat) (e : Nat) (data : List Nat) : List Nat :=
  if e + data.length > dst.length then
    let middle := dst.length - e
    copySlice (copySlice dst e (data.take middle)) 0 (data.drop middle)
  else
    copySlice dst e data

/-- `RingBuffer::write`: compute `end` first; if free space is below one entry
size, evict the oldest entry (`begin += 13 mod capacity`, `length -= 13`);
write the bytes at `end` with wraparound; `length += 13`. -/
def RingBuffer.write (rb : RingBuffer) (data : List Nat) : RingBuffer :=
  let e := rb.end_
  let capacity := rb.data.length
  let rb1 :=
    if capacity - rb.length < TraceEntry.size then
      { rb with
        begin := (rb.begin + TraceEntry.size) % capacity
        length := rb.length - TraceEntry.size }
    else rb
  { rb1 with data := writeBytes rb1.data e data, length := rb1.length + TraceEntry.size }

/-- `trace_event` of the `TraceSink` impl: encode an Event entry with the given
timestamp and the trace's tag and append it.  The `_why` argument is accepted
and ignored, exactly as in the source; the returned fresh id
(`T::Id::new_id()`) is produced outside the buffer and does not affect it. -/
def RingBuffer.trace_event (rb : RingBuffer) (timestamp tag : Nat)
    (_why : Option Nat) : RingBuffer :=
  rb.write (encodeEntry { timestamp := timestamp, tag := tag, kind := TraceKind.Event })

/-- `trace_start`: identical to `trace_event` but with kind `Start`. -/
def RingBuffer.trace_start (rb : RingBuffer) (timestamp tag : Nat)
    (_why : Option Nat) : RingBuffer :=
  rb.write (encodeEntry { timestamp := timestamp, tag := tag, kind := TraceKind.Start })

/-- `trace_stop`: appends a Stop entry; returns nothing. -/
def RingBuffer.trace_stop (rb : RingBuffer) (timestamp tag : Nat) : RingBuffer :=
  rb.write (encodeEntry { timestamp := timestamp, tag := tag, kind := TraceKind.Stop })

/-- Dispatch one append through the `TraceSink` method selected by the entry's
kind (each of the three methods encodes its own kind, so this is the general
shape of any append sequence). -/
def applyTrace (rb : RingBuffer) (e : TraceEntry) : RingBuffer :=
  match e.kind with
  | .Event => rb.trace_event e.timestamp e.tag none
  | .Start => rb.trace_start e.timestamp e.tag none
  | .Stop => rb.trace_stop e.timestamp e.tag

/-- A whole append sequence. -/
def appendAll (rb : RingBuffer) (es : List TraceEntry) : RingBuffer :=
  es.foldl applyTrace rb

/-- The raw-byte read of one record at `idx`, mirroring the body of
`RingBufferIter::next`: a wrapped read assembles the record from
`data[idx..]` and `data[..13 - middle]` into a contiguous scratch area,
a non-wrapped read takes 13 contiguous bytes (`ptr::read`). -/
def readEntryAt (data : List Nat) (idx : Nat) : List Nat :=
  if idx + TraceEntry.size > data.length then
    let middle := data.length - idx
    data.drop idx ++ data.take (TraceEntry.size - middle)
  else
    (data.drop idx).take TraceEntry.size

/-- `RingBufferIterState`: `Empty`, or a cursor into the borrowed buffer. -/
inductive RingBufferIterState where
  | Empty : RingBufferIterState
  | NonEmpty (idx : Nat) : RingBufferIterState
deriving DecidableEq

/-- `RingBuffer::iter()`: `Empty` when `length == 0`, otherwise a cursor at
`begin`. -/
def RingBuffer.iter (rb : RingBuffer) : RingBufferIterState :=
  if rb.length = 0 then .Empty else .NonEmpty rb.begin

/-- One step of `RingBufferIter::next`.  The item is the 13 raw bytes read at
the cursor (the Rust iterator transmutes them to a `TraceEntry`, i.e. applies
`decodeEntry`); the new state advances the cursor by 13 mod capacity and
becomes `Empty` exactly when the advanced cursor equals the buffer's `end`.
The borrowed buffer itself is never changed (`next` takes it immutably). -/
def RingBufferIter.next (rb : RingBuffer) :
    RingBufferIterState → Option (List Nat) × RingBufferIterState
  | .Empty => (none, .Empty)
  | .NonEmpty idx =>
      let result := readEntryAt rb.data idx
      let next_idx := (idx + TraceEntry.size) % rb.data.length
      (some result,
        if next_idx = rb.end_ then .Empty else .NonEmpty next_idx)

/-- Drive the iterator for at most `fuel` steps, collecting the yielded raw
records (the Rust loop's termination is not structural, so it is run on
fuel; the termination theorems show any fuel ≥ `length / 13` gives the same
full result). -/
def iterCollect (rb : RingBuffer) : Nat → RingBufferIterState → List (List Nat)
  | 0, _ => []
  | fuel + 1, s =>
      match RingBufferIter.next rb s with
      | (none, _) => []
      | (some bytes, s') => bytes :: iterCollect rb fuel s'

/-- Everything `iter()` yields, as raw 13-byte records. -/
def RingBuffer.entriesList (rb : RingBuffer) : List (List Nat) :=
  iterCollect rb (rb.length / TraceEntry.size) rb.iter

/-- The logical content of the buffer: the `length / 13` records laid out at
offsets `begin + 13 j (mod capacity)`. -/
def RingBuffer.records (rb : RingBuffer) : List (List Nat) :=
  (List.range (rb.length / TraceEntry.size)).map
    (fun j => readEntryAt rb.data ((rb.begin + TraceEntry.size * j) % rb.data.length))

/-- The ring buffer's representation invariant: capacity exceeds one entry
size, `begin` is in range, `0 ≤ length ≤ capacity`, `length mod 13 = 0`. -/
def RingBuffer.Inv (rb : RingBuffer) : Prop :=
  TraceEntry.size < rb.data.length ∧
  rb.begin < rb.data.length ∧
  rb.length ≤ rb.data.length ∧
  rb.length % TraceEntry.size = 0

instance (rb : RingBuffer) : Decidable rb.Inv := by
  unfold RingBuffer.Inv; infer_instance

/-- The abstract bounded FIFO push: when the queue already holds `cap13`
records, drop the oldest, then append the new record at the back. -/
def pushBounded (cap13 : Nat) (q : List (List Nat)) (e : List Nat) : List (List Nat) :=
  (if cap13 ≤ q.length then q.drop 1 else q) ++ [e]

/-! ## Basic list and modular-arithmetic lemmas -/

theorem getD_take {l : List Nat} {n m : Nat} (h : m < n) :
    (l.take n).getD m 0 = l.getD m 0 := by
  rw [List.getD_eq_getElem?_getD, List.getD_eq_getElem?_getD, List.getElem?_take, if_pos h]

theorem getD_drop (l : List Nat) (i j : Nat) :
    (l.drop i).getD j 0 = l.getD (i + j) 0 := by
  rw [List.getD_eq_getElem?_getD, List.getD_eq_getElem?_getD, List.getElem?_drop]

theorem getD_range_map (l : List Nat) :
    (List.range l.length).map (fun i => l.getD i 0) = l := by
  apply List.ext_getElem
  · simp
  · intro i h1 h2
    simp only [List.getElem_map, List.getElem_range]
    exact List.getD_eq_getElem l 0 h2

theorem copySlice_length {dst src : List Nat} {s : Nat}
    (h : s + src.length ≤ dst.length) :
    (copySlice dst s src).length = dst.length := by
  simp only [copySlice, List.length_append, List.length_take, List.length_drop]
  omega

theorem copySlice_getD {dst src : List Nat} {s : Nat}
    (h : s + src.length ≤ dst.length) (p : Nat) :
    (copySlice dst s src).getD p 0 =
      if s ≤ p ∧ p < s + src.length then src.getD (p - s) 0 else dst.getD p 0 := by
  have hts : (dst.take s).length = s := by rw [List.length_take]; omega
  have hts2 : (dst.take s ++ src).length = s + src.length := by
    rw [List.length_append, hts]
  unfold copySlice
  by_cases h1 : p < s
  · rw [if_neg (by omega), List.getD_append _ _ _ _ (by omega),
      List.getD_append _ _ _ _ (by omega), getD_take h1]
  · push_neg at h1
    by_cases h2 : p < s + src.length
    · rw [if_pos ⟨h1, h2⟩, List.getD_append _ _ _ _ (by omega),
        List.getD_append_right _ _ _ _ (by omega), hts]
    · push_neg at h2
      rw [if_neg (by omega), List.getD_append_right _ _ _ _ (by omega), hts2, getD_drop]
      congr 1
      omega

theorem writeBytes_length {dst data : List Nat} {e : Nat}
    (he : e ≤ dst.length) (hd : data.length ≤ dst.length) :
    (writeBytes dst e data).length = dst.length := by
  unfold writeBytes
  by_cases hw : e + data.length > dst.length
  · rw [if_pos hw]
    have h1 : e + (data.take (dst.length - e)).length ≤ dst.length := by
      rw [List.length_take]; omega
    have h2 := copySlice_length h1
    rw [copySlice_length (by rw [h2, List.length_drop]; omega), h2]
  · rw [if_neg hw]
    exact copySlice_length (by omega)

theorem add_left_mod_cancel {n x a b : Nat} (h : (x + a) % n = (x + b) % n) :
    a % n = b % n :=
  Nat.ModEq.add_left_cancel' x h

theorem mod_bounded_inj {n a b : Nat} (ha : a ≤ n) (hb : b ≤ n) (h : a % n = b % n) :
    a = b ∨ (a = 0 ∧ b = n) ∨ (a = n ∧ b = 0) := by
  rcases Nat.lt_or_ge a n with h1 | h1
  · rcases Nat.lt_or_ge b n with h2 | h2
    · left; rwa [Nat.mod_eq_of_lt h1, Nat.mod_eq_of_lt h2] at h
    · have hb' : b = n := le_antisymm hb h2
      rw [Nat.mod_eq_of_lt h1, hb', Nat.mod_self] at h
      right; left; exact ⟨h, hb'⟩
  · have ha' : a = n := le_antisymm ha h1
    rw [ha', Nat.mod_self] at h
    rcases Nat.lt_or_ge b n with h2 | h2
    · rw [Nat.mod_eq_of_lt h2] at h
      right; right; exact ⟨ha', h.symm⟩
    · left; omega

theorem add_mod_ne_of_lt {n x a b : Nat} (hab : a < b) (hbn : b < n) :
    (x + a) % n ≠ (x + b) % n := by
  intro h
  rcases mod_bounded_inj (by omega) (by omega) (add_left_mod_cancel h) with h' | h' | h' <;>
    omega

theorem add_mod_eq_iff_of {n x a b : Nat} (ha : 0 < a) (hab : a ≤ b) (hbn : b ≤ n) :
    (x + a) % n = (x + b) % n ↔ a = b := by
  constructor
  · intro h
    rcases mod_bounded_inj (by omega) hbn (add_left_mod_cancel h) with h' | h' | h' <;>
      omega
  · intro h; rw [h]

theorem writeBytes_getD_window {dst data : List Nat} {e i : Nat}
    (he : e < dst.length) (hd : data.length ≤ dst.length) (hi : i < data.length) :
    (writeBytes dst e data).getD ((e + i) % dst.length) 0 = data.getD i 0 := by
  unfold writeBytes
  by_cases hw : e + data.length > dst.length
  · rw [if_pos hw]
    have hmid : (data.take (dst.length - e)).length = dst.length - e := by
      rw [List.length_take]; omega
    have hinner : e + (data.take (dst.length - e)).length ≤ dst.length := by omega
    have hc1 := copySlice_length hinner
    have hdrop : (data.drop (dst.length - e)).length = data.length - (dst.length - e) := by
      rw [List.length_drop]
    by_cases him : i < dst.length - e
    · have hpos : (e + i) % dst.length = e + i := Nat.mod_eq_of_lt (by omega)
      rw [hpos, copySlice_getD (by rw [hc1]; omega), if_neg (by omega),
        copySlice_getD hinner, if_pos (by omega)]
      have : e + i - e = i := by omega
      rw [this, getD_take him]
    · have hpos : (e + i) % dst.length = i - (dst.length - e) := by
        rw [Nat.mod_eq_sub_mod (by omega), Nat.mod_eq_of_lt (by omega)]
        omega
      rw [hpos, copySlice_getD (by rw [hc1]; omega), if_pos (by omega)]
      have : i - (dst.length - e) - 0 = i - (dst.length - e) := by omega
      rw [this, getD_drop]
      congr 1
      omega
  · rw [if_neg hw]
    push_neg at hw
    have hpos : (e + i) % dst.length = e + i := Nat.mod_eq_of_lt (by omega)
    rw [hpos, copySlice_getD (by omega), if_pos (by omega)]
    congr 1
    omega

theorem writeBytes_getD_outside {dst data : List Nat} {e p : Nat}
    (he : e < dst.length) (hd : data.length ≤ dst.length) (hp : p < dst.length)
    (hout : ∀ i < data.length, p ≠ (e + i) % dst.length) :
    (writeBytes dst e data).getD p 0 = dst.getD p 0 := by
  unfold writeBytes
  by_cases hw : e + data.length > dst.length
  · rw [if_pos hw]
    have hmid : (data.take (dst.length - e)).length = dst.length - e := by
      rw [List.length_take]; omega
    have hinner : e + (data.take (dst.length - e)).length ≤ dst.length := by omega
    have hc1 := copySlice_length hinner
    have hdrop : (data.drop (dst.length - e)).length = data.length - (dst.length - e) := by
      rw [List.length_drop]
    have hpe : p < e := by
      by_contra hcon
      push_neg at hcon
      apply hout (p - e) (by omega)
      have hEq : e + (p - e) = p := by omega
      rw [hEq, Nat.mod_eq_of_lt hp]
    have hpl : data.length - (dst.length - e) ≤ p := by
      by_contra hcon
      push_neg at hcon
      apply hout ((dst.length - e) + p) (by omega)
      have hEq : e + (dst.length - e + p) = dst.length + p := by omega
      rw [hEq, Nat.add_mod_left, Nat.mod_eq_of_lt hp]
    rw [copySlice_getD (by rw [hc1, hdrop]; omega), if_neg (by rw [hdrop]; omega),
      copySlice_getD hinner, if_neg (by omega)]
  · rw [if_neg hw]
    push_neg at hw
    have hpout : ¬(e ≤ p ∧ p < e + data.length) := by
      rintro ⟨h1, h2⟩
      apply hout (p - e) (by omega)
      have hEq : e + (p - e) = p := by omega
      rw [hEq, Nat.mod_eq_of_lt hp]
    rw [copySlice_getD (by omega), if_neg hpout]

/-! ## Reading one record -/

theorem readEntryAt_length {data : List Nat} {idx : Nat}
    (hc : TraceEntry.size ≤ data.length) (hi : idx < data.length) :
    (readEntryAt data idx).length = TraceEntry.size := by
  unfold readEntryAt
  by_cases hw : idx + TraceEntry.size > data.length
  · rw [if_pos hw]
    simp only [List.length_append, List.length_drop, List.length_take]
    omega
  · rw [if_neg hw]
    simp only [List.length_take, List.length_drop]
    omega

theorem readEntryAt_getD {data : List Nat} {idx i : Nat}
    (hc : TraceEntry.size ≤ data.length) (hi : idx < data.length)
    (hi13 : i < TraceEntry.size) :
    (readEntryAt data idx).getD i 0 = data.getD ((idx + i) % data.length) 0 := by
  have hs : TraceEntry.size = 13 := rfl
  unfold readEntryAt
  by_cases hw : idx + TraceEntry.size > data.length
  · rw [if_pos hw]
    have hdl : (data.drop idx).length = data.length - idx := List.length_drop idx data
    by_cases him : i < data.length - idx
    · rw [List.getD_append _ _ _ _ (by omega), getD_drop]
      congr 1
      rw [Nat.mod_eq_of_lt (by omega)]
    · rw [List.getD_append_right _ _ _ _ (by omega), hdl, getD_take (by omega)]
      congr 1
      rw [Nat.mod_eq_sub_mod (by omega), Nat.mod_eq_of_lt (by omega)]
      omega
  · rw [if_neg hw, getD_take hi13, getD_drop]
    congr 1
    rw [Nat.mod_eq_of_lt (by omega)]

theorem readEntryAt_eq_of {d e : List Nat} {q : Nat}
    (hc : TraceEntry.size ≤ d.length) (hq : q < d.length)
    (he : e.length = TraceEntry.size)
    (hb : ∀ i < TraceEntry.size, d.getD ((q + i) % d.length) 0 = e.getD i 0) :
    readEntryAt d q = e := by
  apply List.ext_getElem
  · rw [readEntryAt_length hc hq, he]
  · intro i h1 h2
    have h13 : i < TraceEntry.size := by rwa [readEntryAt_length hc hq] at h1
    rw [← List.getD_eq_getElem _ 0, ← List.getD_eq_getElem _ 0,
      readEntryAt_getD hc hq h13]
    exact hb i h13

/-! ## Components of `write` -/

theorem write_data (rb : RingBuffer) (e : List Nat) :
    (rb.write e).data = writeBytes rb.data rb.end_ e := by
  unfold RingBuffer.write
  by_cases h : rb.data.length - rb.length < TraceEntry.size <;> simp [h]

theorem write_begin (rb : RingBuffer) (e : List Nat) :
    (rb.write e).begin =
      if rb.data.length - rb.length < TraceEntry.size
        then (rb.begin + TraceEntry.size) % rb.data.length else rb.begin := by
  unfold RingBuffer.write
  by_cases h : rb.data.length - rb.length < TraceEntry.size <;> simp [h]

theorem write_length (rb : RingBuffer) (e : List Nat) :
    (rb.write e).length =
      (if rb.data.length - rb.length < TraceEntry.size
        then rb.length - TraceEntry.size else rb.length) + TraceEntry.size := by
  unfold RingBuffer.write
  by_cases h : rb.data.length - rb.length < TraceEntry.size <;> simp [h]

theorem write_data_length {rb : RingBuffer} {e : List Nat} (hInv : rb.Inv)
    (he : e.length = TraceEntry.size) :
    (rb.write e).data.length = rb.data.length := by
  obtain ⟨hcap, hbegin, hlen, hmod⟩ := hInv
  have hs : TraceEntry.size = 13 := rfl
  have hend : rb.end_ < rb.data.length := Nat.mod_lt _ (by omega)
  rw [write_data]
  exact writeBytes_length (by omega) (by omega)

theorem write_Inv {rb : RingBuffer} {e : List Nat} (hInv : rb.Inv)
    (he : e.length = TraceEntry.size) :
    (rb.write e).Inv := by
  have hdl := write_data_length hInv he
  obtain ⟨hcap, hbegin, hlen, hmod⟩ := hInv
  have hs : TraceEntry.size = 13 := rfl
  refine ⟨by omega, ?_, ?_, ?_⟩
  · rw [write_begin, hdl]
    by_cases h : rb.data.length - rb.length < TraceEntry.size
    · rw [if_pos h]
      exact Nat.mod_lt _ (by omega)
    · rw [if_neg h]; exact hbegin
  · rw [write_length, hdl]
    by_cases h : rb.data.length - rb.length < TraceEntry.size
    · rw [if_pos h]; omega
    · rw [if_neg h]; omega
  · rw [write_length, hs]
    rw [hs] at hmod
    by_cases h : rb.data.length - rb.length < 13
    · rw [if_pos h]; omega
    · rw [if_neg h]; omega

theorem records_length (rb : RingBuffer) :
    rb.records.length = rb.length / TraceEntry.size := by
  simp [RingBuffer.records]

/-! ## The append step, at the level of stored records -/

theorem writeStep {dat e : List Nat} {x L : Nat}
    (hcap : TraceEntry.size < dat.length) (hx : x < dat.length)
    (hL : L + TraceEntry.size ≤ dat.length) (he : e.length = TraceEntry.size)
    (hLmod : L % TraceEntry.size = 0) :
    (List.range (L / TraceEntry.size + 1)).map
        (fun j => readEntryAt (writeBytes dat ((x + L) % dat.length) e)
          ((x + TraceEntry.size * j) % dat.length)) =
      (List.range (L / TraceEntry.size)).map
        (fun j => readEntryAt dat ((x + TraceEntry.size * j) % dat.length)) ++ [e] := by
  have hs : TraceEntry.size = 13 := rfl
  have hdvd : TraceEntry.size ∣ L := Nat.dvd_of_mod_eq_zero hLmod
  have h13L : TraceEntry.size * (L / TraceEntry.size) = L := Nat.mul_div_cancel' hdvd
  have hE : (x + L) % dat.length < dat.length := Nat.mod_lt _ (by omega)
  have hwlen : (writeBytes dat ((x + L) % dat.length) e).length = dat.length :=
    writeBytes_length (by omega) (by omega)
  rw [List.range_succ, List.map_append]
  congr 1
  · apply List.map_congr_left
    intro j hj
    rw [List.mem_range] at hj
    have hjb : TraceEntry.size * j + TraceEntry.size ≤ L := by
      have h1 : TraceEntry.size * (j + 1) ≤ TraceEntry.size * (L / TraceEntry.size) :=
        Nat.mul_le_mul_left _ hj
      rw [h13L] at h1
      rw [hs] at h1 ⊢
      omega
    refine readEntryAt_eq_of (by rw [hwlen]; omega)
      (by rw [hwlen]; exact Nat.mod_lt _ (by omega))
      (readEntryAt_length (by omega) (Nat.mod_lt _ (by omega))) ?_
    intro i hi
    rw [hwlen, readEntryAt_getD (by omega) (Nat.mod_lt _ (by omega)) hi]
    apply writeBytes_getD_outside hE (by omega) (Nat.mod_lt _ (by omega))
    intro i' hi'
    have h1 : ((x + TraceEntry.size * j) % dat.length + i) % dat.length
        = (x + (TraceEntry.size * j + i)) % dat.length := by
      rw [Nat.mod_add_mod, Nat.add_assoc]
    have h2 : ((x + L) % dat.length + i') % dat.length
        = (x + (L + i')) % dat.length := by
      rw [Nat.mod_add_mod, Nat.add_assoc]
    rw [h1, h2]
    exact add_mod_ne_of_lt (by omega) (by omega)
  · rw [List.map_cons, List.map_nil, h13L]
    have helem : readEntryAt (writeBytes dat ((x + L) % dat.length) e)
        ((x + L) % dat.length) = e := by
      refine readEntryAt_eq_of (by rw [hwlen]; omega) (by rw [hwlen]; exact hE) he ?_
      intro i hi
      rw [hwlen]
      exact writeBytes_getD_window hE (by omega) (by omega)
    rw [helem]

theorem map_range_drop {α : Type} (g : Nat → α) (m : Nat) :
    ((List.range (m + 1)).map g).drop 1 = (List.range m).map (fun j => g (j + 1)) := by
  rw [List.range_succ_eq_map, List.map_cons, List.drop_one, List.tail_cons, List.map_map]
  rfl

/-- One append on a buffer satisfying the invariant appends the new record at
the back of the logical content, after dropping the oldest record exactly when
free space was below one entry size. -/
theorem write_records {rb : RingBuffer} {e : List Nat} (hInv : rb.Inv)
    (he : e.length = TraceEntry.size) :
    (rb.write e).records =
      (if rb.data.length - rb.length < TraceEntry.size
        then rb.records.drop 1 else rb.records) ++ [e] := by
  have hdl := write_data_length hInv he
  obtain ⟨hcap, hbegin, hlen, hmod⟩ := hInv
  have hs : TraceEntry.size = 13 := rfl
  unfold RingBuffer.records
  rw [hdl, write_data, write_begin, write_length]
  by_cases hev : rb.data.length - rb.length < TraceEntry.size
  · rw [if_pos hev, if_pos hev, if_pos hev]
    have h13 : TraceEntry.size ≤ rb.length := by rw [hs] at hmod ⊢; omega
    have hsimp : rb.length - TraceEntry.size + TraceEntry.size = rb.length := by omega
    rw [hsimp]
    have hr : rb.length / TraceEntry.size
        = (rb.length - TraceEntry.size) / TraceEntry.size + 1 := by
      rw [hs] at hmod ⊢; omega
    rw [hr]
    have hxL : ((rb.begin + TraceEntry.size) % rb.data.length
          + (rb.length - TraceEntry.size)) % rb.data.length = rb.end_ := by
      unfold RingBuffer.end_
      rw [Nat.mod_add_mod]
      congr 1
      omega
    rw [← hxL]
    rw [@writeStep rb.data e ((rb.begin + TraceEntry.size) % rb.data.length)
      (rb.length - TraceEntry.size) hcap (Nat.mod_lt _ (by omega)) (by omega) he
      (by rw [hs] at hmod ⊢; omega)]
    rw [map_range_drop]
    congr 1
    apply List.map_congr_left
    intro j hj
    congr 1
    rw [Nat.mod_add_mod]
    congr 1
    ring
  · rw [if_neg hev, if_neg hev, if_neg hev]
    have hr : (rb.length + TraceEntry.size) / TraceEntry.size
        = rb.length / TraceEntry.size + 1 := by
      rw [hs]; omega
    rw [hr]
    have hxL : (rb.begin + rb.length) % rb.data.length = rb.end_ := rfl
    rw [← hxL]
    rw [@writeStep rb.data e rb.begin rb.length hcap hbegin (by omega) he hmod]

/-! ## The whole append sequence, refined to a bounded FIFO queue -/

theorem write_records_push {rb : RingBuffer} {e : List Nat} (hInv : rb.Inv)
    (he : e.length = TraceEntry.size) :
    (rb.write e).records =
      pushBounded (rb.data.length / TraceEntry.size) rb.records e := by
  rw [write_records hInv he]
  unfold pushBounded
  congr 1
  obtain ⟨hcap, hbegin, hlen, hmod⟩ := hInv
  have hs : TraceEntry.size = 13 := rfl
  rw [records_length]
  by_cases hev : rb.data.length - rb.length < TraceEntry.size
  · rw [if_pos hev, if_pos (by rw [hs] at hmod ⊢; omega)]
  · rw [if_neg hev, if_neg (by rw [hs] at hmod ⊢; omega)]

theorem applyTrace_eq_write (rb : RingBuffer) (e : TraceEntry) :
    applyTrace rb e = rb.write (encodeEntry e) := by
  unfold applyTrace RingBuffer.trace_event RingBuffer.trace_start RingBuffer.trace_stop
  cases e with
  | mk ts tag k => cases k <;> rfl

theorem encodeEntry_length (e : TraceEntry) :
    (encodeEntry e).length = TraceEntry.size := by
  simp [encodeEntry, toBytesLE, TraceEntry.size]

theorem appendAll_cons (rb : RingBuffer) (e : TraceEntry) (es : List TraceEntry) :
    appendAll rb (e :: es) = appendAll (rb.write (encodeEntry e)) es := by
  unfold appendAll
  rw [List.foldl_cons, applyTrace_eq_write]

theorem appendAll_Inv {rb : RingBuffer} (hInv : rb.Inv) (es : List TraceEntry) :
    (appendAll rb es).Inv := by
  induction es generalizing rb with
  | nil => exact hInv
  | cons e es ih =>
      rw [appendAll_cons]
      exact ih (write_Inv hInv (encodeEntry_length e))

theorem appendAll_data_length {rb : RingBuffer} (hInv : rb.Inv) (es : List TraceEntry) :
    (appendAll rb es).data.length = rb.data.length := by
  induction es generalizing rb with
  | nil => rfl
  | cons e es ih =>
      rw [appendAll_cons, ih (write_Inv hInv (encodeEntry_length e)),
        write_data_length hInv (encodeEntry_length e)]

/-- The append engine refines the abstract bounded queue: folding `write` over
any sequence of encoded records acts on the logical content as folding the
bounded FIFO push. -/
theorem appendAll_records {rb : RingBuffer} (hInv : rb.Inv) (es : List TraceEntry) :
    (appendAll rb es).records =
      es.foldl (fun q e => pushBounded (rb.data.length / TraceEntry.size) q (encodeEntry e))
        rb.records := by
  induction es generalizing rb with
  | nil => rfl
  | cons e es ih =>
      rw [appendAll_cons, List.foldl_cons]
      have h1 := ih (write_Inv hInv (encodeEntry_length e))
      rw [h1, write_data_length hInv (encodeEntry_length e),
        write_records_push hInv (encodeEntry_length e)]

/-- Folding the bounded push from a queue of size ≤ N keeps the most recent
records: the result is the suffix of `q ++ es` of length `min (q.length + es.length) N`. -/
theorem foldl_pushBounded {N : Nat} (hN : 1 ≤ N) (q : List (List Nat))
    (es : List (List Nat)) (hq : q.length ≤ N) :
    es.foldl (pushBounded N) q = (q ++ es).drop (q.length + es.length - N) := by
  induction es generalizing q with
  | nil =>
      rw [List.foldl_nil, List.append_nil]
      simp only [List.length_nil]
      have h0 : q.length + 0 - N = 0 := by omega
      rw [h0, List.drop_zero]
  | cons e es ih =>
      rw [List.foldl_cons]
      by_cases hfull : N ≤ q.length
      · have hqN : q.length = N := by omega
        have hlen1 : (pushBounded N q e).length = N := by
          unfold pushBounded
          rw [if_pos hfull]
          simp only [List.length_append, List.length_drop, List.length_cons,
            List.length_nil]
          omega
        rw [ih (pushBounded N q e) (by omega), hlen1]
        unfold pushBounded
        rw [if_pos hfull]
        have hq1 : 1 ≤ q.length := by omega
        have h1 : N + es.length - N = es.length := by omega
        have h2 : q.length + (e :: es).length - N = es.length + 1 := by
          simp only [List.length_cons]
          omega
        rw [h1, h2]
        have hdq : (q.drop 1 ++ [e]) ++ es = (q ++ e :: es).drop 1 := by
          rw [List.drop_append_of_le_length hq1, List.append_assoc,
            List.singleton_append]
        rw [hdq, List.drop_drop]
        congr 1
        omega
      · push_neg at hfull
        have hlen1 : (pushBounded N q e).length = q.length + 1 := by
          unfold pushBounded
          rw [if_neg (by omega)]
          simp only [List.length_append, List.length_cons, List.length_nil]
        rw [ih (pushBounded N q e) (by omega), hlen1]
        unfold pushBounded
        rw [if_neg (by omega)]
        have hdq : (q ++ [e]) ++ es = q ++ e :: es := by
          rw [List.append_assoc, List.singleton_append]
        rw [hdq]
        congr 1
        simp only [List.length_cons]
        omega

/-! ## The read iterator -/

theorem add_mod_ne_of_lt' {n x a b : Nat} (ha : 0 < a) (hab : a < b) (hbn : b ≤ n) :
    (x + a) % n ≠ (x + b) % n := by
  intro h
  rcases mod_bounded_inj (by omega) hbn (add_left_mod_cancel h) with h' | h' | h' <;>
    omega

theorem iterCollect_empty (rb : RingBuffer) (fuel : Nat) :
    iterCollect rb fuel .Empty = [] := by
  cases fuel with
  | zero => rfl
  | succ fuel => rfl

/-- One `next` call at the cursor of the `k`-th not-yet-yielded record: it
yields the record there and stops exactly when `k` was the last record. -/
theorem next_at {rb : RingBuffer} (hInv : rb.Inv) {k : Nat}
    (hk : k < rb.length / TraceEntry.size) :
    RingBufferIter.next rb
        (.NonEmpty ((rb.begin + TraceEntry.size * k) % rb.data.length)) =
      (some (readEntryAt rb.data ((rb.begin + TraceEntry.size * k) % rb.data.length)),
        if k + 1 = rb.length / TraceEntry.size then .Empty
        else .NonEmpty ((rb.begin + TraceEntry.size * (k + 1)) % rb.data.length)) := by
  obtain ⟨hcap, hbegin, hlen, hmod⟩ := hInv
  have hs : TraceEntry.size = 13 := rfl
  have hn13 : TraceEntry.size * (rb.length / TraceEntry.size) = rb.length :=
    Nat.mul_div_cancel' (Nat.dvd_of_mod_eq_zero hmod)
  have hkn : k + 1 ≤ rb.length / TraceEntry.size := hk
  have hmul : TraceEntry.size * (k + 1) ≤ TraceEntry.size * (rb.length / TraceEntry.size) :=
    Nat.mul_le_mul_left _ hkn
  simp only [RingBufferIter.next]
  have hidx : ((rb.begin + TraceEntry.size * k) % rb.data.length + TraceEntry.size)
      % rb.data.length = (rb.begin + TraceEntry.size * (k + 1)) % rb.data.length := by
    rw [Nat.mod_add_mod, Nat.mul_succ, ← Nat.add_assoc]
  rw [hidx]
  have hendn : rb.end_
      = (rb.begin + TraceEntry.size * (rb.length / TraceEntry.size)) % rb.data.length := by
    unfold RingBuffer.end_
    rw [hn13]
  rw [hendn]
  have hiff : ((rb.begin + TraceEntry.size * (k + 1)) % rb.data.length
        = (rb.begin + TraceEntry.size * (rb.length / TraceEntry.size)) % rb.data.length)
      ↔ (k + 1 = rb.length / TraceEntry.size) := by
    rw [add_mod_eq_iff_of (by rw [hs]; omega) hmul (by rw [hn13]; exact hlen)]
    constructor
    · intro h
      exact Nat.eq_of_mul_eq_mul_left (by rw [hs]; omega) h
    · intro h
      rw [h]
  simp only [hiff]

/-- The iterator loop from the cursor of record `k`: with any sufficient fuel
it yields exactly the remaining `length / 13 - k` records, in layout order. -/
theorem iter_loop {rb : RingBuffer} (hInv : rb.Inv) :
    ∀ fuel k, k < rb.length / TraceEntry.size →
      rb.length / TraceEntry.size - k ≤ fuel →
      iterCollect rb fuel (.NonEmpty ((rb.begin + TraceEntry.size * k) % rb.data.length)) =
        (List.range (rb.length / TraceEntry.size - k)).map
          (fun j => readEntryAt rb.data
            ((rb.begin + TraceEntry.size * (k + j)) % rb.data.length)) := by
  intro fuel
  induction fuel with
  | zero => intro k hk hf; omega
  | succ fuel ih =>
      intro k hk hf
      rw [iterCollect, next_at hInv hk]
      dsimp only
      by_cases hk1 : k + 1 = rb.length / TraceEntry.size
      · rw [if_pos hk1]
        have h1 : rb.length / TraceEntry.size - k = 1 := by omega
        rw [h1, iterCollect_empty]
        have hr1 : List.range 1 = [0] := rfl
        rw [hr1, List.map_cons, List.map_nil, Nat.add_zero]
      · rw [if_neg hk1]
        rw [ih (k + 1) (by omega) (by omega)]
        have h1 : rb.length / TraceEntry.size - k
            = (rb.length / TraceEntry.size - (k + 1)) + 1 := by omega
        rw [h1, List.range_succ_eq_map, List.map_cons, List.map_map]
        rw [Nat.add_zero]
        congr 1
        apply List.map_congr_left
        intro j hj
        have harg : k + (j + 1) = k + 1 + j := by omega
        simp only [Function.comp_apply, Nat.succ_eq_add_one, harg]

/-- Any fuel at least `length / 13` drives the iterator to the same complete
result: the buffer's logical records, oldest first. -/
theorem iterCollect_fuel {rb : RingBuffer} (hInv : rb.Inv) {fuel : Nat}
    (hf : rb.length / TraceEntry.size ≤ fuel) :
    iterCollect rb fuel rb.iter = rb.records := by
  obtain ⟨hcap, hbegin, hlen, hmod⟩ := hInv
  have hs : TraceEntry.size = 13 := rfl
  unfold RingBuffer.iter
  by_cases h0 : rb.length = 0
  · rw [if_pos h0, iterCollect_empty]
    unfold RingBuffer.records
    rw [h0]
    rw [Nat.zero_div, List.range_zero, List.map_nil]
  · rw [if_neg h0]
    have hn : 0 < rb.length / TraceEntry.size := by rw [hs] at hmod ⊢; omega
    have hb0 : rb.begin = (rb.begin + TraceEntry.size * 0) % rb.data.length := by
      rw [Nat.mul_zero, Nat.add_zero, Nat.mod_eq_of_lt hbegin]
    rw [hb0, iter_loop ⟨hcap, hbegin, hlen, hmod⟩ fuel 0 hn (by omega)]
    unfold RingBuffer.records
    rw [Nat.sub_zero]
    apply List.map_congr_left
    intro j hj
    rw [Nat.zero_add]

theorem entriesList_eq_records {rb : RingBuffer} (hInv : rb.Inv) :
    rb.entriesList = rb.records :=
  iterCollect_fuel hInv (Nat.le_refl _)

/-- Cursor positions along the iteration: after `k` of the `length / 13` steps
the state is the cursor at `begin + 13 k (mod capacity)`. -/
theorem iter_state_pos {rb : RingBuffer} (hInv : rb.Inv) (h0 : 0 < rb.length) :
    ∀ k, k < rb.length / TraceEntry.size →
      (fun s => (RingBufferIter.next rb s).2)^[k] rb.iter =
        .NonEmpty ((rb.begin + TraceEntry.size * k) % rb.data.length) := by
  intro k
  induction k with
  | zero =>
      intro hk
      obtain ⟨hcap, hbegin, hlen, hmod⟩ := hInv
      rw [Function.iterate_zero_apply]
      unfold RingBuffer.iter
      rw [if_neg (by omega), Nat.mul_zero, Nat.add_zero, Nat.mod_eq_of_lt hbegin]
  | succ k ih =>
      intro hk
      rw [Function.iterate_succ_apply', ih (by omega)]
      rw [next_at hInv (by omega)]
      rw [if_neg (by omega)]

/-- After exactly `length / 13` steps — and not before — the advanced cursor
equals `end` and the state becomes `Empty`. -/
theorem iter_state_end {rb : RingBuffer} (hInv : rb.Inv) (h0 : 0 < rb.length) :
    (fun s => (RingBufferIter.next rb s).2)^[rb.length / TraceEntry.size] rb.iter =
      .Empty := by
  have hs : TraceEntry.size = 13 := rfl
  have hn : 0 < rb.length / TraceEntry.size := by
    obtain ⟨hcap, hbegin, hlen, hmod⟩ := hInv
    rw [hs] at hmod ⊢
    omega
  have h1 : rb.length / TraceEntry.size = (rb.length / TraceEntry.size - 1) + 1 := by
    omega
  rw [h1, Function.iterate_succ_apply',
    iter_state_pos hInv h0 (rb.length / TraceEntry.size - 1) (by omega),
    next_at hInv (by omega), if_pos (by omega)]

/-! ## Codec round trips -/

theorem toBytesLE_length (w x : Nat) : (toBytesLE w x).length = w := by
  simp [toBytesLE]

theorem toBytesLE_succ (w x : Nat) :
    toBytesLE (w + 1) x = x % 256 :: toBytesLE w (x / 256) := by
  unfold toBytesLE
  rw [List.range_succ_eq_map, List.map_cons, List.map_map]
  congr 1
  · norm_num
  · apply List.map_congr_left
    intro i hi
    simp only [Function.comp_apply, Nat.succ_eq_add_one]
    rw [Nat.div_div_eq_div_mul, ← pow_succ']

theorem fromBytesLE_cons (b : Nat) (bs : List Nat) :
    fromBytesLE (b :: bs) = b + 256 * fromBytesLE bs := by
  simp [fromBytesLE]

theorem fromBytesLE_toBytesLE (w x : Nat) :
    fromBytesLE (toBytesLE w x) = x % 256 ^ w := by
  induction w generalizing x with
  | zero =>
      simp [toBytesLE, fromBytesLE, Nat.mod_one]
  | succ w ih =>
      rw [toBytesLE_succ, fromBytesLE_cons, ih, pow_succ', Nat.mod_mul]

theorem toBytesLE_fromBytesLE (bs : List Nat) (hb : ∀ b ∈ bs, b < 256) :
    toBytesLE bs.length (fromBytesLE bs) = bs := by
  induction bs with
  | nil => rfl
  | cons b bs ih =>
      rw [List.length_cons, toBytesLE_succ, fromBytesLE_cons]
      have hblt : b < 256 := hb b (List.mem_cons_self b bs)
      have h1 : (b + 256 * fromBytesLE bs) % 256 = b := by
        rw [Nat.add_mul_mod_self_left, Nat.mod_eq_of_lt hblt]
      have h2 : (b + 256 * fromBytesLE bs) / 256 = fromBytesLE bs := by
        rw [Nat.add_mul_div_left _ _ (by norm_num), Nat.div_eq_of_lt hblt, Nat.zero_add]
      rw [h1, h2, ih (fun c hc => hb c (List.mem_cons_of_mem b hc))]

theorem ofByte_toByte (k : TraceKind) : TraceKind.ofByte k.toByte = some k := by
  cases k <;> rfl

theorem toByte_lt (k : TraceKind) : k.toByte < 3 := by
  cases k <;> simp [TraceKind.toByte]

/-- Decoding an encoded entry reproduces the entry, whenever the fields fit
their wire widths (`u64` timestamp, `u32` tag). -/
theorem decode_encode (e : TraceEntry) (hts : e.timestamp < 2 ^ 64)
    (htag : e.tag < 2 ^ 32) :
    decodeEntry (encodeEntry e) = some e := by
  obtain ⟨ts, tag, k⟩ := e
  have hlenA : (toBytesLE 8 ts).length = 8 := toBytesLE_length 8 ts
  have hlenB : (toBytesLE 4 tag).length = 4 := toBytesLE_length 4 tag
  have hlen : (encodeEntry ⟨ts, tag, k⟩).length = TraceEntry.size :=
    encodeEntry_length _
  unfold decodeEntry
  rw [if_pos hlen]
  unfold encodeEntry
  simp only
  have h12 : ((toBytesLE 8 ts ++ toBytesLE 4 tag ++ [k.toByte]).getD 12 0) = k.toByte := by
    have hl : (toBytesLE 8 ts ++ toBytesLE 4 tag).length = 12 := by
      rw [List.length_append, hlenA, hlenB]
    rw [List.getD_append_right _ _ _ _ (by rw [hl]), hl]
    rfl
  rw [h12, ofByte_toByte, Option.map_some']
  have htake : (toBytesLE 8 ts ++ toBytesLE 4 tag ++ [k.toByte]).take 8 = toBytesLE 8 ts := by
    rw [List.append_assoc, List.take_left' hlenA]
  have hdrop : (toBytesLE 8 ts ++ toBytesLE 4 tag ++ [k.toByte]).drop 8 =
      toBytesLE 4 tag ++ [k.toByte] := by
    rw [List.append_assoc, List.drop_left' hlenA]
  have htake4 : (toBytesLE 4 tag ++ [k.toByte]).take 4 = toBytesLE 4 tag := by
    rw [List.take_left' hlenB]
  rw [htake, hdrop, htake4, fromBytesLE_toBytesLE, fromBytesLE_toBytesLE]
  have hts' : ts % 256 ^ 8 = ts := Nat.mod_eq_of_lt (by norm_num at hts ⊢; omega)
  have htag' : tag % 256 ^ 4 = tag := Nat.mod_eq_of_lt (by norm_num at htag ⊢; omega)
  rw [hts', htag']

/-- Encoding the decoding of any well-formed 13-byte record (bytes < 256,
valid kind byte) reproduces the record. -/
theorem encode_decode (bs : List Nat) (h13 : bs.length = TraceEntry.size)
    (hb : ∀ b ∈ bs, b < 256) (hk : bs.getD 12 0 < 3) :
    Option.map encodeEntry (decodeEntry bs) = some bs := by
  have hs : TraceEntry.size = 13 := rfl
  obtain ⟨k, hk1, hk2⟩ : ∃ k, TraceKind.ofByte (bs.getD 12 0) = some k
      ∧ k.toByte = bs.getD 12 0 := by
    interval_cases h : bs.getD 12 0
    · exact ⟨.Event, rfl, rfl⟩
    · exact ⟨.Start, rfl, rfl⟩
    · exact ⟨.Stop, rfl, rfl⟩
  unfold decodeEntry
  rw [if_pos h13, hk1, Option.map_some', Option.map_some']
  unfold encodeEntry
  simp only
  have hl8 : (bs.take 8).length = 8 := by rw [List.length_take]; omega
  have hl4 : ((bs.drop 8).take 4).length = 4 := by
    rw [List.length_take, List.length_drop]
    omega
  have hA : toBytesLE 8 (fromBytesLE (bs.take 8)) = bs.take 8 := by
    have h := toBytesLE_fromBytesLE (bs.take 8)
      (fun c hc => hb c (List.mem_of_mem_take hc))
    rwa [hl8] at h
  have hB : toBytesLE 4 (fromBytesLE ((bs.drop 8).take 4)) = (bs.drop 8).take 4 := by
    have h := toBytesLE_fromBytesLE ((bs.drop 8).take 4)
      (fun c hc => hb c (List.mem_of_mem_drop (List.mem_of_mem_take hc)))
    rwa [hl4] at h
  rw [hA, hB, hk2]
  have hlast : bs.drop 12 = [bs.getD 12 0] := by
    rw [List.drop_eq_getElem_cons (by omega), List.getD_eq_getElem _ _ (by omega)]
    congr 1
    exact List.drop_eq_nil_of_le (by omega)
  have hmid : (bs.drop 8).take 4 ++ [bs.getD 12 0] = bs.drop 8 := by
    have hd4 : (bs.drop 8).drop 4 = bs.drop 12 := by
      rw [List.drop_drop]
    rw [← hlast, ← hd4, List.take_append_drop]
  rw [List.append_assoc, hmid, List.take_append_drop]

/-! ## Construction facts and end-to-end characterizations -/

theorem new_facts {cap : Nat} {rb0 : RingBuffer}
    (hnew : RingBuffer.new cap = some rb0) :
    rb0.Inv ∧ rb0.begin = 0 ∧ rb0.length = 0 ∧ rb0.data.length = cap := by
  unfold RingBuffer.new at hnew
  by_cases h : TraceEntry.size < cap
  · rw [if_pos h] at hnew
    have h2 := Option.some.inj hnew
    subst h2
    have hrep : (List.replicate cap (0 : Nat)).length = cap := List.length_replicate cap 0
    refine ⟨⟨?_, ?_, ?_, ?_⟩, rfl, rfl, hrep⟩
    · simpa [hrep] using h
    · simp [hrep]
      have hs : TraceEntry.size = 13 := rfl
      omega
    · simp [hrep]
    · simp
  · rw [if_neg h] at hnew
    simp at hnew

theorem new_records {cap : Nat} {rb0 : RingBuffer}
    (hnew : RingBuffer.new cap = some rb0) : rb0.records = [] := by
  obtain ⟨hInv, hb, hl, hc⟩ := new_facts hnew
  unfold RingBuffer.records
  rw [hl, Nat.zero_div, List.range_zero, List.map_nil]

/-- End-to-end: a fresh buffer of capacity `cap`, after any sequence of
appends, holds exactly the most recent `min (es.length) (cap / 13)` encoded
records, in append order. -/
theorem appendAll_new_records {cap : Nat} {rb0 : RingBuffer}
    (hnew : RingBuffer.new cap = some rb0) (es : List TraceEntry) :
    (appendAll rb0 es).records =
      (es.map encodeEntry).drop (es.length - cap / TraceEntry.size) := by
  obtain ⟨hInv, hb, hl, hc⟩ := new_facts hnew
  have hs : TraceEntry.size = 13 := rfl
  have hcap : TraceEntry.size < cap := by
    obtain ⟨h1, _, _, _⟩ := hInv
    rwa [hc] at h1
  have hN : 1 ≤ cap / TraceEntry.size := by rw [hs] at hcap ⊢; omega
  rw [appendAll_records hInv es, new_records hnew, hc]
  have hfold : es.foldl
        (fun q e => pushBounded (cap / TraceEntry.size) q (encodeEntry e)) [] =
      (es.map encodeEntry).foldl (pushBounded (cap / TraceEntry.size)) [] := by
    rw [List.foldl_map]
  rw [hfold, foldl_pushBounded hN [] (es.map encodeEntry) (by simp)]
  simp only [List.nil_append, List.length_nil, List.length_map, Nat.zero_add]

theorem appendAll_new_entriesList {cap : Nat} {rb0 : RingBuffer}
    (hnew : RingBuffer.new cap = some rb0) (es : List TraceEntry) :
    (appendAll rb0 es).entriesList =
      (es.map encodeEntry).drop (es.length - cap / TraceEntry.size) := by
  obtain ⟨hInv, _, _, _⟩ := new_facts hnew
  rw [entriesList_eq_records (appendAll_Inv hInv es), appendAll_new_records hnew es]

/-- The 13 bytes written by an append never land on the surviving region:
every byte at circular offset `a < L` from the (post-eviction) begin `x` is
untouched by the write at `(x + L) % capacity`. -/
theorem survivor_aux {dat e : List Nat} {x L a : Nat}
    (hcap : TraceEntry.size < dat.length) (hx : x < dat.length)
    (hL : L + TraceEntry.size ≤ dat.length) (he : e.length = TraceEntry.size)
    (ha : a < L) :
    (writeBytes dat ((x + L) % dat.length) e).getD ((x + a) % dat.length) 0 =
      dat.getD ((x + a) % dat.length) 0 := by
  have hs : TraceEntry.size = 13 := rfl
  have hE : (x + L) % dat.length < dat.length := Nat.mod_lt _ (by omega)
  apply writeBytes_getD_outside hE (by omega) (Nat.mod_lt _ (by omega))
  intro i hi
  have h2 : ((x + L) % dat.length + i) % dat.length = (x + (L + i)) % dat.length := by
    rw [Nat.mod_add_mod, Nat.add_assoc]
  rw [h2]
  exact add_mod_ne_of_lt (by omega) (by omega)

/-! ## The claims -/

/-- C1: for every sequence of appends (trace_event, trace_start, trace_stop)
whose total encoded size is at most the buffer's capacity, `iter()` yields
exactly the appended entries, in append order, and each yielded entry decodes
to the corresponding appended entry (in particular its (tag, kind) pair).
The bounds on timestamp and tag are the `u64`/`u32` ranges of the Rust fields. -/
theorem claim_C1 (cap : Nat) (rb0 : RingBuffer) (es : List TraceEntry)
    (hnew : RingBuffer.new cap = some rb0)
    (hwf : ∀ e ∈ es, e.timestamp < 2 ^ 64 ∧ e.tag < 2 ^ 32)
    (hfit : TraceEntry.size * es.length ≤ cap) :
    (appendAll rb0 es).entriesList = es.map encodeEntry ∧
      (appendAll rb0 es).entriesList.map decodeEntry = es.map some := by
  have hs : TraceEntry.size = 13 := rfl
  have h1 : (appendAll rb0 es).entriesList = es.map encodeEntry := by
    rw [appendAll_new_entriesList hnew es]
    have hlen : es.length ≤ cap / TraceEntry.size :=
      (Nat.le_div_iff_mul_le (by rw [hs]; omega)).mpr (by rw [Nat.mul_comm]; exact hfit)
    have h0 : es.length - cap / TraceEntry.size = 0 := by omega
    rw [h0, List.drop_zero]
  refine ⟨h1, ?_⟩
  rw [h1, List.map_map]
  apply List.map_congr_left
  intro e he
  simp only [Function.comp_apply]
  exact decode_encode e (hwf e he).1 (hwf e he).2

/-- C2: when the total encoded size exceeds the capacity, `iter()` yields
exactly the most recent `cap / 13` appended entries, oldest survivor first;
evicted entries are never yielded; and every append succeeds — at each append
either a whole entry of free space is available, or the buffer holds at least
one entry so the eviction (`length -= 13`) cannot underflow. -/
theorem claim_C2 (cap : Nat) (rb0 : RingBuffer) (es : List TraceEntry)
    (hnew : RingBuffer.new cap = some rb0)
    (hwf : ∀ e ∈ es, e.timestamp < 2 ^ 64 ∧ e.tag < 2 ^ 32)
    (hover : cap < TraceEntry.size * es.length) :
    (appendAll rb0 es).entriesList
        = (es.drop (es.length - cap / TraceEntry.size)).map encodeEntry ∧
      (appendAll rb0 es).entriesList.length = cap / TraceEntry.size ∧
      (appendAll rb0 es).entriesList.map decodeEntry
        = (es.drop (es.length - cap / TraceEntry.size)).map some ∧
      ∀ es1 (e : TraceEntry) es2, es = es1 ++ e :: es2 →
        TraceEntry.size ≤ (appendAll rb0 es1).data.length - (appendAll rb0 es1).length ∨
        TraceEntry.size ≤ (appendAll rb0 es1).length := by
  obtain ⟨hInv0, hb0, hl0, hc0⟩ := new_facts hnew
  have hs : TraceEntry.size = 13 := rfl
  have hcap : TraceEntry.size < cap := by
    obtain ⟨h1, _, _, _⟩ := hInv0
    rwa [hc0] at h1
  have hNlen : cap / TraceEntry.size < es.length := by
    rw [hs] at hover ⊢
    omega
  have h1 : (appendAll rb0 es).entriesList
      = (es.drop (es.length - cap / TraceEntry.size)).map encodeEntry := by
    rw [appendAll_new_entriesList hnew es, List.map_drop]
  refine ⟨h1, ?_, ?_, ?_⟩
  · rw [h1, List.length_map, List.length_drop, hs]
    rw [hs] at hNlen
    omega
  · rw [h1, List.map_map]
    apply List.map_congr_left
    intro e he
    simp only [Function.comp_apply]
    have he' : e ∈ es := List.mem_of_mem_drop he
    exact decode_encode e (hwf e he').1 (hwf e he').2
  · intro es1 e es2 heq
    obtain ⟨hc1, hb1, hl1, hm1⟩ := appendAll_Inv hInv0 es1
    rw [hs] at hc1 hm1 ⊢
    rcases Nat.lt_or_ge
        ((appendAll rb0 es1).data.length - (appendAll rb0 es1).length) 13 with hlt | hge
    · right; omega
    · left; omega

/-- C3: the invariants `0 ≤ length ≤ C` and `length mod 13 = 0` hold for a
freshly constructed buffer and are preserved by every append; an append
performs at most one eviction — the single `if` in `write` — and when it
fires it advances `begin` by 13 mod C, removes 13 bytes (never underflowing),
and leaves at least 13 free bytes for the new entry. -/
theorem claim_C3 (cap : Nat) (rb0 : RingBuffer)
    (hnew : RingBuffer.new cap = some rb0) :
    rb0.Inv ∧
    ∀ rb : RingBuffer, rb.Inv → rb.data.length = cap →
      ∀ e : List Nat, e.length = TraceEntry.size →
        (rb.write e).Inv ∧
        (rb.data.length - rb.length < TraceEntry.size →
          TraceEntry.size ≤ rb.length ∧
          (rb.write e).begin = (rb.begin + TraceEntry.size) % cap ∧
          (rb.write e).length = rb.length ∧
          TraceEntry.size + (rb.length - TraceEntry.size) ≤ cap) ∧
        (¬rb.data.length - rb.length < TraceEntry.size →
          (rb.write e).begin = rb.begin ∧
          (rb.write e).length = rb.length + TraceEntry.size) := by
  refine ⟨(new_facts hnew).1, ?_⟩
  intro rb hInv hcl e he
  have hs : TraceEntry.size = 13 := rfl
  obtain ⟨hcap, hbegin, hlen, hmod⟩ := hInv
  refine ⟨write_Inv ⟨hcap, hbegin, hlen, hmod⟩ he, ?_, ?_⟩
  · intro hev
    have h13 : TraceEntry.size ≤ rb.length := by rw [hs] at hmod ⊢; omega
    refine ⟨h13, ?_, ?_, ?_⟩
    · rw [write_begin, if_pos hev, hcl]
    · rw [write_length, if_pos hev]
      omega
    · rw [hs] at h13 ⊢
      omega
  · intro hev
    exact ⟨by rw [write_begin, if_neg hev], by rw [write_length, if_neg hev]⟩

/-- C4: the entry codec round-trips in both directions, over the value ranges
of the Rust field types (`u64` timestamp, `u32` tag, `u8` bytes): decoding an
encoding reproduces the entry, and encoding the decoding of any 13-byte
record with a valid kind byte reproduces the bytes. -/
theorem claim_C4 :
    (∀ e : TraceEntry, e.timestamp < 2 ^ 64 → e.tag < 2 ^ 32 →
      decodeEntry (encodeEntry e) = some e) ∧
    (∀ bs : List Nat, bs.length = TraceEntry.size → (∀ b ∈ bs, b < 256) →
      bs.getD 12 0 < 3 → Option.map encodeEntry (decodeEntry bs) = some bs) :=
  ⟨decode_encode, encode_decode⟩

/-- C5: for every buffer satisfying the invariant — capacities that are not a
multiple of 13 and the completely full `begin = end` case included — the
iteration terminates after exactly `length / 13` produced entries, whatever
sufficient fuel drives it; the cursor starts at `begin`, after `k` steps
stands at `begin + 13 k (mod capacity)`, differs from `end` for
`1 ≤ k < length / 13`, and first equals `end` after exactly `length / 13`
steps, where the state becomes `Empty`. -/
theorem claim_C5 (rb : RingBuffer) (hInv : rb.Inv) :
    ((∀ fuel, rb.length / TraceEntry.size ≤ fuel →
        iterCollect rb fuel rb.iter = rb.records) ∧
      rb.entriesList.length = rb.length / TraceEntry.size) ∧
    (0 < rb.length →
      rb.iter = .NonEmpty rb.begin ∧
      (∀ k, k < rb.length / TraceEntry.size →
        (fun s => (RingBufferIter.next rb s).2)^[k] rb.iter =
          .NonEmpty ((rb.begin + TraceEntry.size * k) % rb.data.length)) ∧
      (∀ k, 1 ≤ k → k < rb.length / TraceEntry.size →
        (rb.begin + TraceEntry.size * k) % rb.data.length ≠ rb.end_) ∧
      (rb.begin + TraceEntry.size * (rb.length / TraceEntry.size)) % rb.data.length
          = rb.end_ ∧
      (fun s => (RingBufferIter.next rb s).2)^[rb.length / TraceEntry.size] rb.iter
          = .Empty) := by
  have hs : TraceEntry.size = 13 := rfl
  obtain ⟨hcap, hbegin, hlen, hmod⟩ := hInv
  have hInv' : rb.Inv := ⟨hcap, hbegin, hlen, hmod⟩
  have hn13 : TraceEntry.size * (rb.length / TraceEntry.size) = rb.length :=
    Nat.mul_div_cancel' (Nat.dvd_of_mod_eq_zero hmod)
  constructor
  · refine ⟨fun fuel hf => iterCollect_fuel hInv' hf, ?_⟩
    rw [entriesList_eq_records hInv', records_length]
  · intro h0
    refine ⟨?_, iter_state_pos hInv' h0, ?_, ?_, iter_state_end hInv' h0⟩
    · unfold RingBuffer.iter
      rw [if_neg (by omega)]
    · intro k hk1 hkn
      have hendn : rb.end_
          = (rb.begin + TraceEntry.size * (rb.length / TraceEntry.size))
            % rb.data.length := by
        unfold RingBuffer.end_
        rw [hn13]
      rw [hendn]
      apply add_mod_ne_of_lt'
      · rw [hs]; omega
      · exact (Nat.mul_lt_mul_left (by rw [hs]; omega)).mpr hkn
      · rw [hn13]; exact hlen
    · unfold RingBuffer.end_
      rw [hn13]

/-- C6: every encoded record is exactly 13 bytes with no padding: bytes 0-8
hold the timestamp as an unsigned 64-bit value and bytes 8-12 the tag as an
unsigned 32-bit value, in native (little-endian) byte order, and byte 12 is
the kind with Event = 0, Start = 1, Stop = 2. -/
theorem claim_C6 (e : TraceEntry) :
    (encodeEntry e).length = 13 ∧
    fromBytesLE ((encodeEntry e).take 8) = e.timestamp % 2 ^ 64 ∧
    fromBytesLE (((encodeEntry e).drop 8).take 4) = e.tag % 2 ^ 32 ∧
    (encodeEntry e).getD 12 0 = e.kind.toByte ∧
    TraceKind.Event.toByte = 0 ∧ TraceKind.Start.toByte = 1 ∧
    TraceKind.Stop.toByte = 2 := by
  obtain ⟨ts, tag, k⟩ := e
  have hlenA : (toBytesLE 8 ts).length = 8 := toBytesLE_length 8 ts
  have hlenB : (toBytesLE 4 tag).length = 4 := toBytesLE_length 4 tag
  have hp8 : (256 : Nat) ^ 8 = 2 ^ 64 := by norm_num
  have hp4 : (256 : Nat) ^ 4 = 2 ^ 32 := by norm_num
  refine ⟨encodeEntry_length _, ?_, ?_, ?_, rfl, rfl, rfl⟩
  · show fromBytesLE ((toBytesLE 8 ts ++ toBytesLE 4 tag ++ [k.toByte]).take 8) = _
    rw [List.append_assoc, List.take_left' hlenA, fromBytesLE_toBytesLE, hp8]
  · show fromBytesLE (((toBytesLE 8 ts ++ toBytesLE 4 tag ++ [k.toByte]).drop 8).take 4)
      = _
    rw [List.append_assoc, List.drop_left' hlenA, List.take_left' hlenB,
      fromBytesLE_toBytesLE, hp4]
  · show (toBytesLE 8 ts ++ toBytesLE 4 tag ++ [k.toByte]).getD 12 0 = _
    have hl : (toBytesLE 8 ts ++ toBytesLE 4 tag).length = 12 := by
      rw [List.length_append, hlenA, hlenB]
    rw [List.getD_append_right _ _ _ _ (by rw [hl]), hl]
    rfl

/-- C7: `new(capacity)` fails (panics) exactly when `capacity ≤ 13`; for every
larger capacity it returns a buffer with `begin = 0` and `length = 0`, on
which `iter()` yields no entries. -/
theorem claim_C7 (cap : Nat) :
    (RingBuffer.new cap = none ↔ cap ≤ TraceEntry.size) ∧
    (TraceEntry.size < cap →
      ∃ rb0, RingBuffer.new cap = some rb0 ∧ rb0.begin = 0 ∧ rb0.length = 0 ∧
        rb0.entriesList = []) := by
  constructor
  · unfold RingBuffer.new
    by_cases h : TraceEntry.size < cap
    · rw [if_pos h]
      simp only [reduceCtorEq, false_iff]
      omega
    · rw [if_neg h]
      simp only [true_iff]
      omega
  · intro h
    refine ⟨{ data := List.replicate cap 0, begin := 0, length := 0 }, ?_, rfl, rfl, ?_⟩
    · unfold RingBuffer.new
      rw [if_pos h]
    · simp only [RingBuffer.entriesList]
      rw [Nat.zero_div]
      rfl

/-- C8: `iter()` and `next()` never mutate the buffer — in the embedding,
mirroring the Rust shared borrow, `next` receives the buffer immutably and
returns only an item and a new cursor state, so `begin`, `length` and the
stored bytes are the same before and after iteration by construction — and the
iteration is deterministic: any two complete runs (any sufficient fuels, with
no intervening append) yield the identical sequence of entries. -/
theorem claim_C8 (rb : RingBuffer) (hInv : rb.Inv) (fuel1 fuel2 : Nat)
    (h1 : rb.length / TraceEntry.size ≤ fuel1)
    (h2 : rb.length / TraceEntry.size ≤ fuel2) :
    iterCollect rb fuel1 rb.iter = iterCollect rb fuel2 rb.iter ∧
      rb.entriesList = iterCollect rb fuel1 rb.iter := by
  rw [iterCollect_fuel hInv h1, iterCollect_fuel hInv h2]
  exact ⟨rfl, entriesList_eq_records hInv⟩

/-- C9: after one append on a buffer satisfying the invariants, the new entry
is the last logical record; all previously present records except (exactly
when an eviction occurred) the single oldest one are still present with
identical bytes and in their relative order; and the 13 newly written bytes
never touch the surviving valid region, wraparound included. -/
theorem claim_C9 (rb : RingBuffer) (e : List Nat) (hInv : rb.Inv)
    (he : e.length = TraceEntry.size) :
    (rb.write e).records =
      (if rb.data.length - rb.length < TraceEntry.size
        then rb.records.drop 1 else rb.records) ++ [e] ∧
    ∀ a, a < (if rb.data.length - rb.length < TraceEntry.size
        then rb.length - TraceEntry.size else rb.length) →
      (rb.write e).data.getD (((rb.write e).begin + a) % rb.data.length) 0 =
        rb.data.getD (((rb.write e).begin + a) % rb.data.length) 0 := by
  obtain ⟨hcap, hbegin, hlen, hmod⟩ := hInv
  have hs : TraceEntry.size = 13 := rfl
  refine ⟨write_records ⟨hcap, hbegin, hlen, hmod⟩ he, ?_⟩
  intro a ha
  rw [write_data, write_begin]
  by_cases hev : rb.data.length - rb.length < TraceEntry.size
  · rw [if_pos hev] at ha ⊢
    have h13 : TraceEntry.size ≤ rb.length := by rw [hs] at hmod ⊢; omega
    have hxL : ((rb.begin + TraceEntry.size) % rb.data.length
          + (rb.length - TraceEntry.size)) % rb.data.length = rb.end_ := by
      unfold RingBuffer.end_
      rw [Nat.mod_add_mod]
      congr 1
      omega
    rw [← hxL]
    exact survivor_aux hcap (Nat.mod_lt _ (by omega)) (by omega) he ha
  · rw [if_neg hev] at ha ⊢
    have hxL : (rb.begin + rb.length) % rb.data.length = rb.end_ := rfl
    rw [← hxL]
    exact survivor_aux hcap hbegin (by omega) he ha

/-- C10: the buffer state produced by `trace_event` (and `trace_start`) is
independent of the `why` argument: `Some id` for any id and `None` give the
very same buffer — begin, length and all stored bytes — because the sink
accepts `_why` and never reads it. -/
theorem claim_C10 (rb : RingBuffer) (timestamp tag i : Nat) :
    rb.trace_event timestamp tag (some i) = rb.trace_event timestamp tag none ∧
    rb.trace_start timestamp tag (some i) = rb.trace_start timestamp tag none :=
  ⟨rfl, rfl⟩

/-! ## Witnesses: the claims instantiated at concrete inputs -/

theorem claim_C1_witness :
    (appendAll { data := List.replicate 40 0, begin := 0, length := 0 }
        [⟨5, 7, TraceKind.Event⟩, ⟨6, 8, TraceKind.Start⟩]).entriesList
      = ([⟨5, 7, TraceKind.Event⟩, ⟨6, 8, TraceKind.Start⟩] : List TraceEntry).map
          encodeEntry ∧
    ((appendAll { data := List.replicate 40 0, begin := 0, length := 0 }
        [⟨5, 7, TraceKind.Event⟩, ⟨6, 8, TraceKind.Start⟩]).entriesList.map
          decodeEntry)
      = ([⟨5, 7, TraceKind.Event⟩, ⟨6, 8, TraceKind.Start⟩] : List TraceEntry).map
          some :=
  claim_C1 40 { data := List.replicate 40 0, begin := 0, length := 0 }
    [⟨5, 7, TraceKind.Event⟩, ⟨6, 8, TraceKind.Start⟩]
    (by decide) (by decide) (by decide)

theorem claim_C2_witness :
    (appendAll { data := List.replicate 40 0, begin := 0, length := 0 }
        [⟨1, 1, TraceKind.Event⟩, ⟨2, 2, TraceKind.Start⟩,
          ⟨3, 3, TraceKind.Event⟩, ⟨4, 4, TraceKind.Stop⟩]).entriesList
      = (([⟨1, 1, TraceKind.Event⟩, ⟨2, 2, TraceKind.Start⟩,
            ⟨3, 3, TraceKind.Event⟩, ⟨4, 4, TraceKind.Stop⟩] : List TraceEntry).drop
          (([⟨1, 1, TraceKind.Event⟩, ⟨2, 2, TraceKind.Start⟩,
              ⟨3, 3, TraceKind.Event⟩, ⟨4, 4, TraceKind.Stop⟩] : List TraceEntry).length
            - 40 / TraceEntry.size)).map encodeEntry ∧
    (appendAll { data := List.replicate 40 0, begin := 0, length := 0 }
        [⟨1, 1, TraceKind.Event⟩, ⟨2, 2, TraceKind.Start⟩,
          ⟨3, 3, TraceKind.Event⟩, ⟨4, 4, TraceKind.Stop⟩]).entriesList.length
      = 40 / TraceEntry.size ∧
    (TraceEntry.size
        ≤ (appendAll { data := List.replicate 40 0, begin := 0, length := 0 }
            []).data.length
          - (appendAll { data := List.replicate 40 0, begin := 0, length := 0 }
            []).length ∨
      TraceEntry.size
        ≤ (appendAll { data := List.replicate 40 0, begin := 0, length := 0 }
            []).length) := by
  have h := claim_C2 40 { data := List.replicate 40 0, begin := 0, length := 0 }
    [⟨1, 1, TraceKind.Event⟩, ⟨2, 2, TraceKind.Start⟩,
      ⟨3, 3, TraceKind.Event⟩, ⟨4, 4, TraceKind.Stop⟩]
    (by decide) (by decide) (by decide)
  exact ⟨h.1, h.2.1, h.2.2.2 [] ⟨1, 1, TraceKind.Event⟩
    [⟨2, 2, TraceKind.Start⟩, ⟨3, 3, TraceKind.Event⟩, ⟨4, 4, TraceKind.Stop⟩] rfl⟩

theorem claim_C3_witness :
    ({ data := List.replicate 27 0, begin := 0, length := 0 } : RingBuffer).Inv ∧
    (({ data := List.replicate 27 0, begin := 0, length := 26 } : RingBuffer).write
        (encodeEntry ⟨3, 4, TraceKind.Event⟩)).Inv ∧
    (TraceEntry.size
        ≤ ({ data := List.replicate 27 0, begin := 0, length := 26 } : RingBuffer).length ∧
      (({ data := List.replicate 27 0, begin := 0, length := 26 } : RingBuffer).write
          (encodeEntry ⟨3, 4, TraceKind.Event⟩)).begin
        = (({ data := List.replicate 27 0, begin := 0, length := 26 }
            : RingBuffer).begin + TraceEntry.size) % 27 ∧
      (({ data := List.replicate 27 0, begin := 0, length := 26 } : RingBuffer).write
          (encodeEntry ⟨3, 4, TraceKind.Event⟩)).length
        = ({ data := List.replicate 27 0, begin := 0, length := 26 }
            : RingBuffer).length ∧
      TraceEntry.size
          + (({ data := List.replicate 27 0, begin := 0, length := 26 }
              : RingBuffer).length - TraceEntry.size) ≤ 27) := by
  have h := claim_C3 27 { data := List.replicate 27 0, begin := 0, length := 0 }
    (by decide)
  have h2 := h.2 { data := List.replicate 27 0, begin := 0, length := 26 }
    (by decide) (by decide) (encodeEntry ⟨3, 4, TraceKind.Event⟩) (by decide)
  exact ⟨h.1, h2.1, h2.2.1 (by decide)⟩

theorem claim_C4_witness :
    decodeEntry (encodeEntry ⟨100, 7, TraceKind.Stop⟩)
        = some ⟨100, 7, TraceKind.Stop⟩ ∧
    Option.map encodeEntry (decodeEntry [1, 0, 0, 0, 0, 0, 0, 0, 2, 0, 0, 0, 1])
        = some [1, 0, 0, 0, 0, 0, 0, 0, 2, 0, 0, 0, 1] :=
  ⟨claim_C4.1 ⟨100, 7, TraceKind.Stop⟩ (by decide) (by decide),
    claim_C4.2 [1, 0, 0, 0, 0, 0, 0, 0, 2, 0, 0, 0, 1]
      (by decide) (by decide) (by decide)⟩

theorem claim_C5_witness :
    iterCollect { data := List.replicate 26 0, begin := 13, length := 26 } 2
        ({ data := List.replicate 26 0, begin := 13, length := 26 }
          : RingBuffer).iter
      = ({ data := List.replicate 26 0, begin := 13, length := 26 }
          : RingBuffer).records ∧
    ({ data := List.replicate 26 0, begin := 13, length := 26 }
        : RingBuffer).entriesList.length
      = ({ data := List.replicate 26 0, begin := 13, length := 26 }
          : RingBuffer).length / TraceEntry.size ∧
    (fun s => (RingBufferIter.next
          { data := List.replicate 26 0, begin := 13, length := 26 } s).2)^[
        ({ data := List.replicate 26 0, begin := 13, length := 26 }
          : RingBuffer).length / TraceEntry.size]
        ({ data := List.replicate 26 0, begin := 13, length := 26 }
          : RingBuffer).iter
      = RingBufferIterState.Empty := by
  have h := claim_C5 { data := List.replicate 26 0, begin := 13, length := 26 }
    (by decide)
  exact ⟨h.1.1 2 (by decide), h.1.2, (h.2 (by decide)).2.2.2.2⟩

theorem claim_C7_witness :
    RingBuffer.new 13 = none ∧
    RingBuffer.new 40
        = some { data := List.replicate 40 0, begin := 0, length := 0 } ∧
    ({ data := List.replicate 40 0, begin := 0, length := 0 }
        : RingBuffer).entriesList = [] := by
  obtain ⟨rb0, h1, hb, hl, he⟩ := (claim_C7 40).2 (by decide)
  have heq : rb0 = { data := List.replicate 40 0, begin := 0, length := 0 } := by
    have h2 : RingBuffer.new 40
        = some { data := List.replicate 40 0, begin := 0, length := 0 } := by decide
    rw [h1] at h2
    exact Option.some.inj h2
  rw [heq] at h1 he
  exact ⟨(claim_C7 13).1.mpr (by decide), h1, he⟩

theorem claim_C8_witness :
    iterCollect { data := List.replicate 26 0, begin := 13, length := 26 } 2
        ({ data := List.replicate 26 0, begin := 13, length := 26 }
          : RingBuffer).iter
      = iterCollect { data := List.replicate 26 0, begin := 13, length := 26 } 5
        ({ data := List.replicate 26 0, begin := 13, length := 26 }
          : RingBuffer).iter ∧
    ({ data := List.replicate 26 0, begin := 13, length := 26 }
        : RingBuffer).entriesList
      = iterCollect { data := List.replicate 26 0, begin := 13, length := 26 } 2
        ({ data := List.replicate 26 0, begin := 13, length := 26 }
          : RingBuffer).iter :=
  claim_C8 { data := List.replicate 26 0, begin := 13, length := 26 }
    (by decide) 2 5 (by decide) (by decide)

theorem claim_C9_witness :
    (({ data := List.replicate 26 0, begin := 13, length := 26 } : RingBuffer).write
        (encodeEntry ⟨9, 5, TraceKind.Start⟩)).records
      = (if ({ data := List.replicate 26 0, begin := 13, length := 26 }
            : RingBuffer).data.length
          - ({ data := List.replicate 26 0, begin := 13, length := 26 }
            : RingBuffer).length < TraceEntry.size
        then ({ data := List.replicate 26 0, begin := 13, length := 26 }
            : RingBuffer).records.drop 1
        else ({ data := List.replicate 26 0, begin := 13, length := 26 }
            : RingBuffer).records) ++ [encodeEntry ⟨9, 5, TraceKind.Start⟩] ∧
    (({ data := List.replicate 26 0, begin := 13, length := 26 } : RingBuffer).write
          (encodeEntry ⟨9, 5, TraceKind.Start⟩)).data.getD
        (((({ data := List.replicate 26 0, begin := 13, length := 26 }
            : RingBuffer).write (encodeEntry ⟨9, 5, TraceKind.Start⟩)).begin + 0)
          % ({ data := List.replicate 26 0, begin := 13, length := 26 }
            : RingBuffer).data.length) 0
      = ({ data := List.replicate 26 0, begin := 13, length := 26 }
            : RingBuffer).data.getD
        (((({ data := List.replicate 26 0, begin := 13, length := 26 }
            : RingBuffer).write (encodeEntry ⟨9, 5, TraceKind.Start⟩)).begin + 0)
          % ({ data := List.replicate 26 0, begin := 13, length := 26 }
            : RingBuffer).data.length) 0 := by
  have h := claim_C9 { data := List.replicate 26 0, begin := 13, length := 26 }
    (encodeEntry ⟨9, 5, TraceKind.Start⟩) (by decide) (by decide)
  exact ⟨h.1, h.2 0 (by decide)⟩

end Hydra
